import Mathlib

/-! Verification of the shift-assignment engine of the `shift-management`
repository.  The canonical engine is `optimizeShift` in
`app/api/optimize/route.ts`; an in-process variant with a flat output
projection lives in `app/api/generate-shift/route.js` (the file carrying the
`optimizeShift` returning `shifts`).  JavaScript string-keyed objects are
modelled as insertion-ordered association lists together with the ECMAScript
own-property enumeration order used by `Object.entries`: array-index keys
first, in ascending numeric order, then the remaining string keys in
insertion order.  Property updates keep the key at its original position. -/

namespace ShiftManagement

/-- Numeric value of a digit string (callers ensure all characters are
decimal digits). -/
def strToNat (s : String) : Nat :=
  s.data.foldl (fun a c => a * 10 + (c.toNat - 48)) 0

/-- ECMAScript array-index property key: the canonical decimal representation
of an integer in the interval from 0 up to (not including) 2^32 - 1; that is,
nonempty, all digits, no leading zero except the string "0" itself. -/
def isArrayIndex (s : String) : Bool :=
  !s.data.isEmpty && s.data.all Char.isDigit
    && (s.data.length == 1 || s.data.headD '0' != '0')
    && strToNat s < 4294967295

/-- JavaScript object property assignment `obj[k] = v`: an existing key keeps
its position and gets the new value, a fresh key is appended. -/
def jsInsert {α : Type} (l : List (String × α)) (k : String) (v : α) :
    List (String × α) :=
  if l.any (fun p => p.1 == k) then
    l.map (fun p => if p.1 == k then (k, v) else p)
  else l ++ [(k, v)]

/-- Build a JavaScript object from a sequence of property assignments,
starting from the empty object literal. -/
def jsBuild {α : Type} (ps : List (String × α)) : List (String × α) :=
  ps.foldl (fun acc p => jsInsert acc p.1 p.2) []

/-- Insert an element into a list, before the first element whose key is not
smaller; the building block of a stable insertion sort. -/
def insSortedBy {α : Type} (key : α → Int) (x : α) : List α → List α
  | [] => [x]
  | y :: ys => if key x ≤ key y then x :: y :: ys else y :: insSortedBy key x ys

/-- Stable sort by ascending integer key.  ECMAScript 2019 requires
`Array.prototype.sort` with comparator `(a, b) => a.key - b.key` to be a
stable ascending sort, and the stable ascending permutation of a list is
unique, so any stable sorting algorithm models it; we use insertion sort. -/
def sortOn {α : Type} (key : α → Int) (l : List α) : List α :=
  l.foldr (insSortedBy key) []

/-- `Object.entries` enumeration order of a JavaScript object whose insertion
order is `l`: array-index keys first in ascending numeric order, then the
remaining keys in insertion order. -/
def jsEntries {α : Type} (l : List (String × α)) : List (String × α) :=
  sortOn (fun p => (strToNat p.1 : Int)) (l.filter (fun p => isArrayIndex p.1))
    ++ l.filter (fun p => !isArrayIndex p.1)

/-! Wire data model (`interface Staff`, `Constraints`, `InputData`,
`ScheduleItem`, `OptimizeResult` in `app/api/optimize/route.ts`).  Optional
fields become `Option`; absent (`undefined`) is `none`. -/

structure Staff where
  id : Option String := none
  name : Option String := none
  preferred_dates : List String := []
  unavailable_dates : List String := []
  max_days : Option Int := none
  min_days : Option Int := none
deriving DecidableEq

structure Constraints where
  min_staff_per_day : Option Int := none
  max_staff_per_day : Option Int := none
deriving DecidableEq

structure InputData where
  staff : List Staff
  dates : List String
  constraints : Constraints := {}
deriving DecidableEq

structure ScheduleItem where
  date : String
  staff : List String
  count : Nat
deriving DecidableEq

structure Stats where
  total_assignments : Nat
  staff_distribution : List (String × Nat)
  average_per_staff : ℚ
  days_with_shortage : Nat
deriving DecidableEq

structure OptimizeResult where
  success : Bool
  schedule : Option (List ScheduleItem) := none
  stats : Option Stats := none
  warnings : Option (List String) := none
  error : Option String := none
deriving DecidableEq

/-- JavaScript truthiness of an optional string value: `undefined` and the
empty string are falsy. -/
def truthy : Option String → Bool
  | none => false
  | some s => !s.isEmpty

/-- Per-staff record held in the engine's `staffInfo` object. -/
structure StaffInfo where
  preferredDates : List String
  unavailableDates : List String
  maxDays : Int
  minDays : Int
deriving DecidableEq

/-- `staff.id || staff.name || staff_$\{Math.random()...}` of the canonical
engine: the `Math.random().toString(36).slice(2, 8)` suffix is modelled by an
oracle `rand` giving the string produced at the i-th roster position, so that
two invocations of the engine are two choices of oracle. -/
def resolveId (rand : Nat → String) (i : Nat) (s : Staff) : String :=
  if truthy s.id then s.id.getD ""
  else if truthy s.name then s.name.getD ""
  else "staff_" ++ rand i

/-- Identifiers of the roster in order, with the oracle's position index. -/
def resolveIds (rand : Nat → String) : Nat → List Staff → List String
  | _, [] => []
  | i, s :: rest => resolveId rand i s :: resolveIds rand (i + 1) rest

/-- The `staffInfo` entry built for one staff record by the canonical engine. -/
def mkInfo (dates : List String) (s : Staff) : StaffInfo :=
  { preferredDates := s.preferred_dates
    unavailableDates := s.unavailable_dates
    maxDays := s.max_days.getD (dates.length : Int)
    minDays := s.min_days.getD 0 }

/-- The engine's `staffInfo` object in insertion order (the
`staffList.forEach` loop). -/
def buildInfo (rand : Nat → String) (staffList : List Staff)
    (dates : List String) : List (String × StaffInfo) :=
  jsBuild ((resolveIds rand 0 staffList).zip (staffList.map (mkInfo dates)))

/-- One day's candidate pool with scores, in `Object.entries(staffInfo)`
order: skip staff whose `unavailableDates` holds the date or whose work count
reached `maxDays`; score is `workCount * 10`, minus 100 on a preferred date. -/
def candidatesFor (entries : List (String × StaffInfo)) (wc : String → Nat)
    (date : String) : List (String × Int) :=
  entries.filterMap (fun p =>
    if p.2.unavailableDates.contains date then none
    else if (wc p.1 : Int) ≥ p.2.maxDays then none
    else some (p.1, (wc p.1 : Int) * 10
      - (if p.2.preferredDates.contains date then 100 else 0)))

/-- Ids assigned on one day: candidates sorted by ascending score, cut off at
`maxStaff` (the assignment loop breaks once `assignedCount >= maxStaff`). -/
def assignedFor (entries : List (String × StaffInfo)) (wc : String → Nat)
    (maxStaff : Int) (date : String) : List String :=
  ((sortOn Prod.snd (candidatesFor entries wc date)).take maxStaff.toNat).map
    Prod.fst

/-- Engine state while looping over the dates: the `schedule` object (date to
list of assigned ids) and the `staffWorkCount` object. -/
abbrev EngineState := (String → List String) × (String → Nat)

def initState : EngineState := (fun _ => [], fun _ => 0)

/-- Processing of one element of the date list: push this day's assigned ids
onto `schedule[date]` and bump each assigned id's work count. -/
def stepDate (entries : List (String × StaffInfo)) (maxStaff : Int)
    (st : EngineState) (date : String) : EngineState :=
  let assigned := assignedFor entries st.2 maxStaff date
  (fun d => if d = date then st.1 d ++ assigned else st.1 d,
   fun k => st.2 k + assigned.count k)

/-- The full assignment loop (`for (const date of dates)`). -/
def runAssign (entries : List (String × StaffInfo)) (maxStaff : Int)
    (dates : List String) : EngineState :=
  dates.foldl (stepDate entries maxStaff) initState

/-- The shortage message template literal of the result-formatting loop. -/
def mkWarning (date : String) (minStaff : Int) (count : Nat) : String :=
  date ++ ": 最低人数 " ++ toString minStaff ++ "人を満たせません（"
    ++ toString count ++ "人）"

/-- `Math.round`: round half toward positive infinity. -/
def mathRound (q : ℚ) : Int := Int.floor (q + 1 / 2)

/-- `Math.round((totalAssignments / staffList.length) * 10) / 10`, in exact
rational arithmetic (JavaScript computes in binary floating point, which is
itself deterministic; no claim depends on the value of this field). -/
def averagePerStaff (total : Nat) (staffLen : Nat) : ℚ :=
  if staffLen > 0 then (mathRound ((total : ℚ) / (staffLen : ℚ) * 10) : ℚ) / 10
  else 0

/-- The warnings produced by the result-formatting loop: one per element of
the date list whose accumulated assignment list is below `minStaff`. -/
def shortageWarnings (dates : List String) (minStaff : Int)
    (sched : String → List String) : List String :=
  dates.filterMap (fun d =>
    if ((sched d).length : Int) < minStaff then
      some (mkWarning d minStaff (sched d).length)
    else none)

/-- The `minStaff` constant of the engine. -/
def minStaffOf (input : InputData) : Int :=
  input.constraints.min_staff_per_day.getD 1

/-- The `maxStaff` constant of the engine. -/
def maxStaffOf (input : InputData) : Int :=
  input.constraints.max_staff_per_day.getD (input.staff.length : Int)

/-- `Object.entries(staffInfo)` as the assignment loop enumerates it. -/
def entriesOf (rand : Nat → String) (input : InputData) :
    List (String × StaffInfo) :=
  jsEntries (buildInfo rand input.staff input.dates)

/-- The `schedule` and `staffWorkCount` objects after the assignment loop. -/
def finalState (rand : Nat → String) (input : InputData) : EngineState :=
  runAssign (entriesOf rand input) (maxStaffOf input) input.dates

/-- The `resultSchedule` array of the result-formatting loop. -/
def resultScheduleOf (rand : Nat → String) (input : InputData) :
    List ScheduleItem :=
  input.dates.map (fun d => ScheduleItem.mk d ((finalState rand input).1 d)
    (((finalState rand input).1 d)).length)

/-- The `warnings` array of the result-formatting loop. -/
def warningsOf (rand : Nat → String) (input : InputData) : List String :=
  shortageWarnings input.dates (minStaffOf input) (finalState rand input).1

/-- `staffWorkCount` as returned in `stats.staff_distribution`, in the
object's own-property order. -/
def distributionOf (rand : Nat → String) (input : InputData) :
    List (String × Nat) :=
  (entriesOf rand input).map (fun p => (p.1, (finalState rand input).2 p.1))

/-- `totalAssignments`: the sum of the values of `staffWorkCount`. -/
def totalOf (rand : Nat → String) (input : InputData) : Nat :=
  ((distributionOf rand input).map Prod.snd).sum

/-- The canonical engine `optimizeShift` of `app/api/optimize/route.ts`,
parameterized by the randomness oracle for synthetic identifiers. -/
def optimizeShift (rand : Nat → String) (input : InputData) : OptimizeResult :=
  if input.staff.length = 0 then
    { success := false, error := some "スタッフが登録されていません" }
  else if input.dates.length = 0 then
    { success := false, error := some "日付が指定されていません" }
  else
    { success := true
      schedule := some (resultScheduleOf rand input)
      stats := some
        { total_assignments := totalOf rand input
          staff_distribution := distributionOf rand input
          average_per_staff := averagePerStaff (totalOf rand input)
            input.staff.length
          days_with_shortage := (warningsOf rand input).length }
      warnings := if (warningsOf rand input).length > 0 then
        some (warningsOf rand input) else none
      error := none }

/-- The order in which the engine considers candidates on every date: the
`Object.entries(staffInfo)` key order. -/
def considerationOrder (rand : Nat → String) (input : InputData) :
    List String :=
  (jsEntries (buildInfo rand input.staff input.dates)).map Prod.fst

/-! The generate-shift variant (`optimizeShift` of
`app/api/generate-shift/route.js`): same greedy engine, but `staff.id ||
staff.name` with no random fallback (a staff record with neither becomes the
object key "undefined", and a present empty-string name becomes the key ""),
no `minDays` in its `staffInfo` records (the unread `minDays` field is
recorded as 0), and a flat `shifts` output projection. -/

def resolveIdGen (s : Staff) : String :=
  if truthy s.id then s.id.getD ""
  else
    match s.name with
    | some n => n
    | none => "undefined"

def mkInfoGen (dates : List String) (s : Staff) : StaffInfo :=
  { preferredDates := s.preferred_dates
    unavailableDates := s.unavailable_dates
    maxDays := s.max_days.getD (dates.length : Int)
    minDays := 0 }

structure ShiftRecord where
  staff_id : String
  date : String
  start_time : String
  end_time : String
deriving DecidableEq

structure GenerateResult where
  success : Bool
  shifts : Option (List ShiftRecord) := none
  error : Option String := none
deriving DecidableEq

/-- The variant's `staffInfo` in `Object.entries` order. -/
def entriesGen (input : InputData) : List (String × StaffInfo) :=
  jsEntries (jsBuild ((input.staff.map resolveIdGen).zip
    (input.staff.map (mkInfoGen input.dates))))

/-- The variant's state after its (identical) assignment loop. -/
def finalStateGen (input : InputData) : EngineState :=
  runAssign (entriesGen input) (maxStaffOf input) input.dates

/-- The variant's flat `shifts` array. -/
def shiftsOf (input : InputData) : List ShiftRecord :=
  input.dates.flatMap (fun d =>
    ((finalStateGen input).1 d).map (fun sid =>
      ShiftRecord.mk sid d "09:00" "17:00"))

def optimizeShiftGen (input : InputData) : GenerateResult :=
  if input.staff.length = 0 then
    { success := false, error := some "スタッフが登録されていません" }
  else if input.dates.length = 0 then
    { success := false, error := some "日付が指定されていません" }
  else
    { success := true, shifts := some (shiftsOf input), error := none }

/-- The flat projection of a per-day schedule described in the spec: one
record per assigned (staff, date) pair, in schedule order, with the fixed
placeholder times 09:00 and 17:00. -/
def flattenSchedule (items : List ScheduleItem) : List ShiftRecord :=
  items.flatMap (fun it =>
    it.staff.map (fun sid => ShiftRecord.mk sid it.date "09:00" "17:00"))

/-- Value-mapping of an association list, keeping keys. -/
def mapVals {α β : Type} (f : α → β) (l : List (String × α)) :
    List (String × β) :=
  l.map (fun p => (p.1, f p.2))

/-- Forgetting the `minDays` field, which the assignment loop never reads
and which the generate-shift variant does not store. -/
def scrubMinDays (i : StaffInfo) : StaffInfo :=
  { i with minDays := 0 }

/-- A fixed randomness oracle used for concrete runs in witnesses and
counterexamples. -/
def sampleRand : Nat → String := fun _ => "k3j9qz"

/-- First-occurrence deduplication: the key order a JavaScript object's
insertion-order list acquires when the same key is assigned repeatedly. -/
def firstDedup (l : List String) : List String :=
  l.foldl (fun acc k => if k ∈ acc then acc else acc ++ [k]) []

/-- Reading a property of a JavaScript object modelled as an
insertion-ordered association list (the first entry with the key wins; keys
are unique in every object the engine builds). -/
def jsGet {α : Type} (l : List (String × α)) (a : String) : Option α :=
  match l with
  | [] => none
  | p :: ps => if p.1 = a then some p.2 else jsGet ps a

/-! Lemmas about the JavaScript object model. -/

lemma keys_jsInsert {α : Type} (l : List (String × α)) (k : String) (v : α) :
    (jsInsert l k v).map Prod.fst =
      if k ∈ l.map Prod.fst then l.map Prod.fst else l.map Prod.fst ++ [k] := by
  have hany : (l.any (fun p => p.1 == k)) = true ↔ k ∈ l.map Prod.fst := by
    rw [List.any_eq_true, List.mem_map]
    constructor
    · rintro ⟨p, hp, hk⟩; exact ⟨p, hp, beq_iff_eq.mp hk⟩
    · rintro ⟨p, hp, hk⟩; exact ⟨p, hp, beq_iff_eq.mpr hk⟩
  unfold jsInsert
  by_cases h : l.any (fun p => p.1 == k) = true
  · rw [if_pos h, if_pos (hany.mp h), List.map_map]
    apply List.map_congr_left
    intro p hp
    by_cases hpk : p.1 = k
    · simp [hpk]
    · simp [hpk]
  · rw [if_neg h, if_neg (fun hm => h (hany.mpr hm))]
    simp

lemma jsBuild_keys_aux {α : Type} (ps : List (String × α))
    (acc : List (String × α)) :
    ((ps.foldl (fun a p => jsInsert a p.1 p.2) acc).map Prod.fst) =
      (ps.map Prod.fst).foldl
        (fun a k => if k ∈ a then a else a ++ [k]) (acc.map Prod.fst) := by
  induction ps generalizing acc with
  | nil => rfl
  | cons p ps ih =>
    simp only [List.foldl_cons, List.map_cons]
    rw [ih, keys_jsInsert]

/-- The key order of a JavaScript object built by a sequence of assignments
is the first-occurrence order of the assigned keys. -/
lemma jsBuild_keys {α : Type} (ps : List (String × α)) :
    (jsBuild ps).map Prod.fst = firstDedup (ps.map Prod.fst) :=
  jsBuild_keys_aux ps []

lemma firstDedup_aux_nodup (l : List String) (acc : List String)
    (hacc : acc.Nodup) :
    (l.foldl (fun a k => if k ∈ a then a else a ++ [k]) acc).Nodup := by
  induction l generalizing acc with
  | nil => exact hacc
  | cons x xs ih =>
    simp only [List.foldl_cons]
    by_cases hx : x ∈ acc
    · rw [if_pos hx]; exact ih acc hacc
    · rw [if_neg hx]
      exact ih _ (by simp [List.nodup_append, hacc, hx])

lemma firstDedup_nodup (l : List String) : (firstDedup l).Nodup :=
  firstDedup_aux_nodup l [] List.nodup_nil

lemma firstDedup_aux_mem (l : List String) (acc : List String) (k : String) :
    k ∈ l.foldl (fun a k => if k ∈ a then a else a ++ [k]) acc ↔
      k ∈ acc ∨ k ∈ l := by
  induction l generalizing acc with
  | nil => simp
  | cons x xs ih =>
    simp only [List.foldl_cons]
    by_cases hx : x ∈ acc
    · rw [if_pos hx, ih]
      constructor
      · rintro (h | h)
        · exact Or.inl h
        · exact Or.inr (List.mem_cons_of_mem x h)
      · rintro (h | h)
        · exact Or.inl h
        · rcases List.mem_cons.mp h with rfl | h
          · exact Or.inl hx
          · exact Or.inr h
    · rw [if_neg hx, ih]
      simp only [List.mem_append, List.mem_singleton, List.mem_cons]
      tauto

lemma firstDedup_mem (l : List String) (k : String) :
    k ∈ firstDedup l ↔ k ∈ l := by
  rw [firstDedup, firstDedup_aux_mem]
  simp

lemma jsBuild_keys_nodup {α : Type} (ps : List (String × α)) :
    ((jsBuild ps).map Prod.fst).Nodup := by
  rw [jsBuild_keys]; exact firstDedup_nodup _

lemma jsGet_append {α : Type} (l m : List (String × α)) (a : String) :
    jsGet (l ++ m) a =
      match jsGet l a with
      | some v => some v
      | none => jsGet m a := by
  induction l with
  | nil => simp [jsGet]
  | cons p ps ih =>
    by_cases hp : p.1 = a
    · simp [jsGet, hp]
    · simp [jsGet, hp, ih]

lemma jsGet_eq_none {α : Type} (l : List (String × α)) (a : String)
    (h : ∀ p ∈ l, p.1 ≠ a) : jsGet l a = none := by
  induction l with
  | nil => rfl
  | cons p ps ih =>
    rw [jsGet, if_neg (h p (List.mem_cons_self p ps))]
    exact ih (fun q hq => h q (List.mem_cons_of_mem p hq))

lemma jsGet_isSome {α : Type} (l : List (String × α)) (a : String)
    (h : ∃ p ∈ l, p.1 = a) : (jsGet l a).isSome := by
  induction l with
  | nil => simp at h
  | cons p ps ih =>
    by_cases hp : p.1 = a
    · simp [jsGet, hp]
    · rw [jsGet, if_neg hp]
      rcases h with ⟨q, hq, hqa⟩
      rcases List.mem_cons.mp hq with rfl | hq
      · exact absurd hqa hp
      · exact ih ⟨q, hq, hqa⟩

lemma jsGet_map_update {α : Type} (ps : List (String × α)) (k a : String)
    (v : α) :
    jsGet (ps.map fun p => if p.1 == k then (k, v) else p) a =
      if a = k then (jsGet ps k).map (fun _ => v) else jsGet ps a := by
  induction ps with
  | nil => simp [jsGet]
  | cons p ps ih =>
    by_cases hpk : p.1 = k
    · simp only [List.map_cons, if_pos (beq_iff_eq.mpr hpk)]
      by_cases hak : a = k
      · subst hak; simp [jsGet, hpk]
      · have hpa : ¬p.1 = a := fun h : p.1 = a => hak (hpk ▸ h : k = a).symm
        simp only [jsGet]
        rw [if_neg (fun h : k = a => hak h.symm), ih, if_neg hak, if_neg hak,
          if_neg hpa]
    · simp only [List.map_cons,
        if_neg (fun hb => hpk (beq_iff_eq.mp hb))]
      by_cases hpa : p.1 = a
      · have hak : ¬a = k := fun h => hpk (hpa.trans h)
        simp [jsGet, hpa, hak]
      · simp only [jsGet]
        rw [if_neg hpa, ih, if_neg hpa, if_neg hpk]

/-- A JavaScript property assignment behaves as an update-or-append on reads:
reading the assigned key gives the new value, other keys are untouched. -/
lemma jsGet_jsInsert {α : Type} (l : List (String × α)) (k a : String)
    (v : α) :
    jsGet (jsInsert l k v) a = if a = k then some v else jsGet l a := by
  unfold jsInsert
  by_cases h : l.any (fun p => p.1 == k) = true
  · rw [if_pos h, jsGet_map_update]
    by_cases hak : a = k
    · rw [if_pos hak, if_pos hak]
      rcases List.any_eq_true.mp h with ⟨p, hp, hpk⟩
      have := jsGet_isSome l k ⟨p, hp, beq_iff_eq.mp hpk⟩
      rcases Option.isSome_iff_exists.mp this with ⟨w, hw⟩
      rw [hw]; rfl
    · rw [if_neg hak, if_neg hak]
  · rw [if_neg h, jsGet_append]
    have hnone : ∀ p ∈ l, p.1 ≠ k := by
      intro p hp hpk
      exact h (List.any_eq_true.mpr ⟨p, hp, beq_iff_eq.mpr hpk⟩)
    by_cases hak : a = k
    · subst hak
      rw [jsGet_eq_none l a hnone, if_pos rfl]
      simp [jsGet]
    · rw [if_neg hak]
      cases hv : jsGet l a with
      | some w => rfl
      | none =>
        simp only [jsGet]
        rw [if_neg (Ne.symm hak)]

/-- Reading a key of an object built by a sequence of assignments gives the
value of the last assignment with that key. -/
lemma jsGet_jsBuild {α : Type} (ps : List (String × α)) (a : String) :
    jsGet (jsBuild ps) a = (ps.reverse.find? (fun p => p.1 == a)).map Prod.snd := by
  induction ps using List.reverseRecOn with
  | nil => rfl
  | append_singleton qs p ih =>
    rw [jsBuild, List.foldl_append, List.foldl_cons, List.foldl_nil,
      List.reverse_append, List.reverse_singleton]
    show jsGet (jsInsert (jsBuild qs) p.1 p.2) a = _
    rw [jsGet_jsInsert, List.singleton_append, List.find?_cons]
    by_cases hap : a = p.1
    · rw [if_pos hap]
      have : (p.1 == a) = true := beq_iff_eq.mpr hap.symm
      rw [this]
      rfl
    · rw [if_neg hap]
      have : (p.1 == a) = false := by
        simp [beq_iff_eq]
        exact fun h => hap h.symm
      rw [this, ih]

/-! Lemmas about the stable sort and the `Object.entries` order. -/

lemma insSortedBy_perm {α : Type} (key : α → Int) (x : α) (l : List α) :
    List.Perm (insSortedBy key x l) (x :: l) := by
  induction l with
  | nil => rfl
  | cons y ys ih =>
    rw [insSortedBy]
    by_cases h : key x ≤ key y
    · rw [if_pos h]
    · rw [if_neg h]
      exact (List.Perm.cons y ih).trans (List.Perm.swap x y ys)

lemma sortOn_perm {α : Type} (key : α → Int) (l : List α) :
    List.Perm (sortOn key l) l := by
  induction l with
  | nil => rfl
  | cons x xs ih =>
    exact (insSortedBy_perm key x (sortOn key xs)).trans (List.Perm.cons x ih)

lemma sublist_insSortedBy {α : Type} (key : α → Int) (x : α) (l m : List α)
    (h : List.Sublist l m) : List.Sublist l (insSortedBy key x m) := by
  induction m generalizing l with
  | nil => rw [insSortedBy]; exact h.trans (List.nil_sublist [x])
  | cons y ys ih =>
    rw [insSortedBy]
    by_cases hk : key x ≤ key y
    · rw [if_pos hk]; exact h.trans (List.sublist_cons_self x (y :: ys))
    · rw [if_neg hk]
      cases h with
      | cons _ h2 => exact List.Sublist.cons y (ih _ h2)
      | cons₂ _ h2 => exact List.Sublist.cons₂ y (ih _ h2)

lemma pair_sublist_insSortedBy {α : Type} (key : α → Int) (x b : α)
    (m : List α) (hb : b ∈ m) (hxb : key x ≤ key b) :
    List.Sublist [x, b] (insSortedBy key x m) := by
  induction m with
  | nil => simp at hb
  | cons y ys ih =>
    rw [insSortedBy]
    by_cases hk : key x ≤ key y
    · rw [if_pos hk]
      exact List.Sublist.cons₂ x (List.singleton_sublist.mpr hb)
    · rw [if_neg hk]
      rcases List.mem_cons.mp hb with rfl | hb2
      · exact absurd hxb hk
      · exact List.Sublist.cons y (ih hb2)

lemma mem_sortOn {α : Type} (key : α → Int) (l : List α) (x : α)
    (h : x ∈ l) : x ∈ sortOn key l :=
  ((sortOn_perm key l).mem_iff).mpr h

/-- Stability of the sort: a pair occurring in this order in the input, whose
first element's key is not larger, occurs in the same order in the output. -/
lemma sortOn_stable {α : Type} (key : α → Int) (l : List α) (a b : α)
    (hab : List.Sublist [a, b] l) (hk : key a ≤ key b) :
    List.Sublist [a, b] (sortOn key l) := by
  induction l with
  | nil => simp at hab
  | cons c cs ih =>
    rw [sortOn, List.foldr_cons]
    show List.Sublist [a, b] (insSortedBy key c (sortOn key cs))
    cases hab with
    | cons _ h2 => exact sublist_insSortedBy key c _ _ (ih h2)
    | cons₂ _ h2 =>
      exact pair_sublist_insSortedBy key a b _
        (mem_sortOn key cs b (List.singleton_sublist.mp h2)) hk

lemma jsEntries_perm {α : Type} (l : List (String × α)) : List.Perm (jsEntries l) l := by
  rw [jsEntries]
  refine List.Perm.trans (List.Perm.append_right _ ?_) (List.filter_append_perm _ l)
  exact sortOn_perm _ _

lemma jsEntries_keys_perm {α : Type} (l : List (String × α)) :
    List.Perm ((jsEntries l).map Prod.fst) (l.map Prod.fst) :=
  (jsEntries_perm l).map Prod.fst

/-- When no key of the object is an ECMAScript array index, `Object.entries`
enumerates in pure insertion order. -/
lemma jsEntries_of_no_arrayIndex {α : Type} (l : List (String × α))
    (h : ∀ p ∈ l, isArrayIndex p.1 = false) : jsEntries l = l := by
  rw [jsEntries]
  have h1 : l.filter (fun p => isArrayIndex p.1) = [] := by
    rw [List.filter_eq_nil_iff]
    intro p hp
    simp [h p hp]
  have h2 : l.filter (fun p => !isArrayIndex p.1) = l := by
    rw [List.filter_eq_self]
    intro p hp
    simp [h p hp]
  rw [h1, h2]
  rfl

/-- In a list with duplicate-free keys, a key determines its value. -/
lemma value_eq_of_keys_nodup {α : Type} (l : List (String × α))
    (hn : (l.map Prod.fst).Nodup) (k : String) (v w : α)
    (hv : (k, v) ∈ l) (hw : (k, w) ∈ l) : v = w := by
  induction l with
  | nil => simp at hv
  | cons p ps ih =>
    rw [List.map_cons, List.nodup_cons] at hn
    rcases List.mem_cons.mp hv with rfl | hv2
    · rcases List.mem_cons.mp hw with h | hw2
      · exact (congrArg Prod.snd h).symm
      · exact absurd (List.mem_map_of_mem Prod.fst hw2) hn.1
    · rcases List.mem_cons.mp hw with rfl | hw2
      · exact absurd (List.mem_map_of_mem Prod.fst hv2) hn.1
      · exact ih hn.2 hv2 hw2

/-! Lemmas about the candidate pool and the assignment loop. -/

lemma candidatesFor_keys_sublist (entries : List (String × StaffInfo))
    (wc : String → Nat) (date : String) :
    List.Sublist ((candidatesFor entries wc date).map Prod.fst)
      (entries.map Prod.fst) := by
  induction entries with
  | nil => simp [candidatesFor]
  | cons p ps ih =>
    rw [candidatesFor, List.filterMap_cons]
    by_cases h1 : p.2.unavailableDates.contains date
    · rw [if_pos h1]
      exact List.Sublist.cons p.1 ih
    · rw [if_neg h1]
      by_cases h2 : (wc p.1 : Int) ≥ p.2.maxDays
      · rw [if_pos h2]
        exact List.Sublist.cons p.1 ih
      · rw [if_neg h2, List.map_cons]
        exact List.Sublist.cons₂ p.1 ih

lemma mem_candidatesFor (entries : List (String × StaffInfo))
    (wc : String → Nat) (date : String) (pr : String × Int)
    (h : pr ∈ candidatesFor entries wc date) :
    ∃ info, (pr.1, info) ∈ entries
      ∧ info.unavailableDates.contains date = false
      ∧ (wc pr.1 : Int) < info.maxDays
      ∧ pr.2 = (wc pr.1 : Int) * 10
          - (if info.preferredDates.contains date then 100 else 0) := by
  rcases List.mem_filterMap.mp h with ⟨p, hp, hf⟩
  by_cases h1 : p.2.unavailableDates.contains date
  · rw [if_pos h1] at hf; exact absurd hf (by simp)
  · rw [if_neg h1] at hf
    by_cases h2 : (wc p.1 : Int) ≥ p.2.maxDays
    · rw [if_pos h2] at hf; exact absurd hf (by simp)
    · rw [if_neg h2] at hf
      have hpr := (Option.some_inj.mp hf).symm
      refine ⟨p.2, ?_, ?_, ?_, ?_⟩
      · rw [hpr]; exact hp
      · exact Bool.eq_false_iff.mpr h1
      · rw [hpr]; exact lt_of_not_ge h2
      · rw [hpr]

lemma mem_assignedFor (entries : List (String × StaffInfo))
    (wc : String → Nat) (maxStaff : Int) (date : String) (k : String)
    (h : k ∈ assignedFor entries wc maxStaff date) :
    ∃ sc, (k, sc) ∈ candidatesFor entries wc date := by
  rcases List.mem_map.mp h with ⟨pr, hpr, rfl⟩
  have h2 : pr ∈ sortOn Prod.snd (candidatesFor entries wc date) :=
    (List.take_sublist _ _).mem hpr
  exact ⟨pr.2, (sortOn_perm Prod.snd _).mem_iff.mp h2⟩

lemma assignedFor_nodup (entries : List (String × StaffInfo))
    (wc : String → Nat) (maxStaff : Int) (date : String)
    (hn : (entries.map Prod.fst).Nodup) :
    (assignedFor entries wc maxStaff date).Nodup := by
  rw [assignedFor, List.map_take]
  refine List.Nodup.sublist (List.take_sublist _ _) ?_
  refine (((sortOn_perm Prod.snd _).map Prod.fst).nodup_iff).mpr ?_
  exact List.Nodup.sublist (candidatesFor_keys_sublist entries wc date) hn

lemma assignedFor_length (entries : List (String × StaffInfo))
    (wc : String → Nat) (maxStaff : Int) (date : String) :
    (assignedFor entries wc maxStaff date).length ≤ maxStaff.toNat := by
  rw [assignedFor, List.length_map]
  exact List.length_take_le _ _

lemma count_le_one_of_nodup (l : List String) (hn : l.Nodup) (x : String) :
    l.count x ≤ 1 := by
  induction l with
  | nil => simp
  | cons y ys ih =>
    rcases List.nodup_cons.mp hn with ⟨hy, hys⟩
    rw [List.count_cons]
    by_cases hxy : x = y
    · subst hxy
      rw [List.count_eq_zero_of_not_mem hy]
      simp
    · rw [if_neg (fun hb => hxy (beq_iff_eq.mp hb).symm)]
      simp [ih hys]

/-- Dates not yet processed keep their schedule entry. -/
lemma foldl_sched_frame (entries : List (String × StaffInfo)) (maxStaff : Int)
    (ds : List String) (st : EngineState) (d : String) (hd : d ∉ ds) :
    ((ds.foldl (stepDate entries maxStaff) st).1) d = st.1 d := by
  induction ds generalizing st with
  | nil => rfl
  | cons d0 rest ih =>
    rw [List.foldl_cons]
    have hd0 : d ≠ d0 := fun h => hd (h ▸ List.mem_cons_self d0 rest)
    rw [ih _ (fun h => hd (List.mem_cons_of_mem d0 h))]
    simp [stepDate, hd0]

/-- Work counts never decrease while the date loop runs. -/
lemma foldl_wc_mono (entries : List (String × StaffInfo)) (maxStaff : Int)
    (ds : List String) (st : EngineState) (k : String) :
    st.2 k ≤ ((ds.foldl (stepDate entries maxStaff) st).2) k := by
  induction ds generalizing st with
  | nil => exact Nat.le_refl _
  | cons d0 rest ih =>
    rw [List.foldl_cons]
    exact Nat.le_trans (Nat.le_add_right _ _) (ih (stepDate entries maxStaff st d0))

/-- One pass preserves the work-count cap. -/
lemma stepDate_cap (entries : List (String × StaffInfo)) (maxStaff : Int)
    (st : EngineState) (date : String)
    (hn : (entries.map Prod.fst).Nodup)
    (hinv : ∀ k info, (k, info) ∈ entries → (st.2 k : Int) ≤ info.maxDays) :
    ∀ k info, (k, info) ∈ entries →
      (((stepDate entries maxStaff st date).2) k : Int) ≤ info.maxDays := by
  intro k info hk
  show ((st.2 k + (assignedFor entries st.2 maxStaff date).count k : Nat) : Int)
    ≤ info.maxDays
  by_cases hmem : k ∈ assignedFor entries st.2 maxStaff date
  · rcases mem_assignedFor entries st.2 maxStaff date k hmem with ⟨sc, hsc⟩
    rcases mem_candidatesFor entries st.2 date (k, sc) hsc with
      ⟨info2, hinfo2, _, hlt, _⟩
    have hlt2 : (st.2 k : Int) < info2.maxDays := hlt
    have heq : info2 = info := value_eq_of_keys_nodup entries hn k info2 info hinfo2 hk
    subst heq
    have hcount : (assignedFor entries st.2 maxStaff date).count k ≤ 1 :=
      count_le_one_of_nodup _ (assignedFor_nodup entries st.2 maxStaff date hn) k
    push_cast
    omega
  · rw [List.count_eq_zero_of_not_mem hmem]
    exact hinv k info hk

/-- The work-count cap holds after the whole loop. -/
lemma foldl_wc_cap (entries : List (String × StaffInfo)) (maxStaff : Int)
    (ds : List String) (st : EngineState)
    (hn : (entries.map Prod.fst).Nodup)
    (hinv : ∀ k info, (k, info) ∈ entries → (st.2 k : Int) ≤ info.maxDays) :
    ∀ k info, (k, info) ∈ entries →
      (((ds.foldl (stepDate entries maxStaff) st).2) k : Int) ≤ info.maxDays := by
  induction ds generalizing st with
  | nil => exact hinv
  | cons d0 rest ih =>
    rw [List.foldl_cons]
    exact ih _ (stepDate_cap entries maxStaff st d0 hn hinv)

/-- Everyone ever pushed onto a date's schedule was a candidate for that
date, hence does not have it among their unavailable dates. -/
lemma foldl_sched_mem (entries : List (String × StaffInfo)) (maxStaff : Int)
    (ds : List String) (st : EngineState)
    (hinv : ∀ d k, k ∈ st.1 d → ∃ info, (k, info) ∈ entries
      ∧ info.unavailableDates.contains d = false) :
    ∀ d k, k ∈ ((ds.foldl (stepDate entries maxStaff) st).1) d →
      ∃ info, (k, info) ∈ entries
        ∧ info.unavailableDates.contains d = false := by
  induction ds generalizing st with
  | nil => exact hinv
  | cons d0 rest ih =>
    rw [List.foldl_cons]
    refine ih _ ?_
    intro d k hk
    by_cases hd : d = d0
    · subst hd
      simp only [stepDate, if_pos rfl] at hk
      rcases List.mem_append.mp hk with hk | hk
      · exact hinv d k hk
      · rcases mem_assignedFor entries st.2 maxStaff d k hk with ⟨sc, hsc⟩
        rcases mem_candidatesFor entries st.2 d (k, sc) hsc with
          ⟨info, hinfo, hunav, _, _⟩
        exact ⟨info, hinfo, hunav⟩
    · simp only [stepDate, if_neg hd] at hk
      exact hinv d k hk

/-- With a duplicate-free date list, every date's final schedule entry is the
single pass made for it, so its length respects the per-day cap. -/
lemma foldl_sched_len (entries : List (String × StaffInfo)) (maxStaff : Int)
    (ds : List String) (st : EngineState) (hnd : ds.Nodup) :
    ∀ d ∈ ds, st.1 d = [] →
      (((ds.foldl (stepDate entries maxStaff) st).1) d).length
        ≤ maxStaff.toNat := by
  induction ds generalizing st with
  | nil => intro d hd; simp at hd
  | cons d0 rest ih =>
    rcases List.nodup_cons.mp hnd with ⟨hd0, hrest⟩
    intro d hd hempty
    rw [List.foldl_cons]
    rcases List.mem_cons.mp hd with rfl | hdr
    · rw [foldl_sched_frame entries maxStaff rest _ d hd0]
      simp only [stepDate, if_pos rfl, hempty, List.nil_append]
      exact assignedFor_length entries st.2 maxStaff d
    · have hne : d ≠ d0 := fun h => hd0 (h ▸ hdr)
      refine ih _ hrest d hdr ?_
      simp [stepDate, hne, hempty]

/-- With a duplicate-free date list, the final work count of an id is the
total number of times it occurs in the dates' final schedule entries. -/
lemma foldl_wc_counts (entries : List (String × StaffInfo)) (maxStaff : Int)
    (ds : List String) (st : EngineState) (hnd : ds.Nodup)
    (hempty : ∀ d ∈ ds, st.1 d = []) (k : String) :
    ((ds.foldl (stepDate entries maxStaff) st).2) k =
      st.2 k + (ds.map (fun d =>
        (((ds.foldl (stepDate entries maxStaff) st).1) d).count k)).sum := by
  induction ds generalizing st with
  | nil => simp
  | cons d0 rest ih =>
    rcases List.nodup_cons.mp hnd with ⟨hd0, hrest⟩
    rw [List.foldl_cons, List.map_cons, List.sum_cons]
    have hframe := foldl_sched_frame entries maxStaff rest
      (stepDate entries maxStaff st d0) d0 hd0
    have hsched0 : ((rest.foldl (stepDate entries maxStaff)
        (stepDate entries maxStaff st d0)).1) d0 =
        assignedFor entries st.2 maxStaff d0 := by
      rw [hframe]
      simp [stepDate, hempty d0 (List.mem_cons_self d0 rest)]
    have hempty2 : ∀ d ∈ rest, ((stepDate entries maxStaff st d0).1) d = [] := by
      intro d hd
      have hne : d ≠ d0 := fun h => hd0 (h ▸ hd)
      simp [stepDate, hne, hempty d (List.mem_cons_of_mem d0 hd)]
    rw [ih _ hrest hempty2, hsched0]
    have hstep : ((stepDate entries maxStaff st d0).2) k
        = st.2 k + (assignedFor entries st.2 maxStaff d0).count k := rfl
    rw [hstep]
    omega

/-! Summation helpers for the accounting identity. -/

lemma sum_map_add_nat {β : Type} (l : List β) (f g : β → Nat) :
    (l.map (fun x => f x + g x)).sum = (l.map f).sum + (l.map g).sum := by
  induction l with
  | nil => rfl
  | cons x xs ih =>
    simp only [List.map_cons, List.sum_cons, ih]
    omega

lemma sum_exchange (K ds : List String) (f : String → String → Nat) :
    (K.map (fun k => (ds.map (fun d => f k d)).sum)).sum
      = (ds.map (fun d => (K.map (fun k => f k d)).sum)).sum := by
  induction K with
  | nil => simp
  | cons k0 K ih =>
    simp only [List.map_cons, List.sum_cons, ih]
    exact (sum_map_add_nat ds (fun d => f k0 d) _).symm

lemma sum_indicator_zero (K : List String) (x : String) (hx : x ∉ K) :
    (K.map (fun k => if x == k then 1 else 0)).sum = 0 := by
  induction K with
  | nil => rfl
  | cons y ys ih =>
    have hyx : ¬(x == y) = true := fun hb =>
      hx (beq_iff_eq.mp hb ▸ List.mem_cons_self y ys)
    simp only [List.map_cons, List.sum_cons, if_neg hyx]
    rw [Nat.zero_add]
    exact ih (fun h => hx (List.mem_cons_of_mem y h))

lemma sum_indicator_one (K : List String) (x : String) (hK : K.Nodup)
    (hx : x ∈ K) : (K.map (fun k => if x == k then 1 else 0)).sum = 1 := by
  induction K with
  | nil => simp at hx
  | cons y ys ih =>
    rcases List.nodup_cons.mp hK with ⟨hy, hys⟩
    simp only [List.map_cons, List.sum_cons]
    by_cases hyx : y = x
    · subst hyx
      rw [if_pos (beq_iff_eq.mpr rfl), sum_indicator_zero ys y hy]
    · rcases List.mem_cons.mp hx with rfl | hx2
      · exact absurd rfl hyx
      · rw [if_neg (fun hb => hyx (beq_iff_eq.mp hb).symm), ih hys hx2]

/-- Counting each key of a duplicate-free key list in a list drawn from those
keys sums to that list's length. -/
lemma sum_counts_length (K : List String) (a : List String) (hK : K.Nodup)
    (ha : ∀ x ∈ a, x ∈ K) : (K.map (fun k => a.count k)).sum = a.length := by
  induction a with
  | nil => simp
  | cons x xs ih =>
    have hx : x ∈ K := ha x (List.mem_cons_self x xs)
    have hxs : ∀ y ∈ xs, y ∈ K := fun y hy => ha y (List.mem_cons_of_mem x hy)
    have hcc : K.map (fun k => (x :: xs).count k)
        = K.map (fun k => xs.count k + if x == k then 1 else 0) := by
      apply List.map_congr_left
      intro k hk
      rw [List.count_cons]
    rw [hcc, sum_map_add_nat, ih hxs, List.length_cons,
      sum_indicator_one K x hK hx]

/-- The keys of the `Object.entries` enumeration of the engine's `staffInfo`
object are duplicate-free. -/
lemma entries_keys_nodup (rand : Nat → String) (staffList : List Staff)
    (dates : List String) :
    ((jsEntries (buildInfo rand staffList dates)).map Prod.fst).Nodup :=
  ((jsEntries_keys_perm (buildInfo rand staffList dates)).nodup_iff).mpr
    (jsBuild_keys_nodup _)

/-! Equivalence of the generate-shift variant with the canonical engine:
its `staffInfo` object differs only by not storing `minDays`, which the
assignment loop never reads. -/

lemma mapVals_cons {α β : Type} (f : α → β) (p : String × α)
    (ps : List (String × α)) :
    mapVals f (p :: ps) = (p.1, f p.2) :: mapVals f ps := rfl

lemma mapVals_append {α β : Type} (f : α → β) (l m : List (String × α)) :
    mapVals f (l ++ m) = mapVals f l ++ mapVals f m :=
  List.map_append _ l m

lemma any_mapVals {α β : Type} (f : α → β) (l : List (String × α))
    (k : String) :
    (mapVals f l).any (fun p => p.1 == k) = l.any (fun p => p.1 == k) := by
  induction l with
  | nil => rfl
  | cons p ps ih => simp only [mapVals_cons, List.any_cons, ih]

lemma jsInsert_mapVals {α β : Type} (f : α → β) (l : List (String × α))
    (k : String) (v : α) :
    jsInsert (mapVals f l) k (f v) = mapVals f (jsInsert l k v) := by
  rw [jsInsert, jsInsert, any_mapVals]
  by_cases h : l.any (fun p => p.1 == k) = true
  · rw [if_pos h, if_pos h, mapVals, mapVals, List.map_map, List.map_map]
    apply List.map_congr_left
    intro p hp
    by_cases hpk : (p.1 == k) = true
    · simp [Function.comp, hpk]
    · simp [Function.comp, hpk]
  · rw [if_neg h, if_neg h, mapVals_append]
    rfl

lemma jsBuild_mapVals_aux {α β : Type} (f : α → β) (ps : List (String × α)) :
    ∀ acc : List (String × α),
      (mapVals f ps).foldl (fun a p => jsInsert a p.1 p.2) (mapVals f acc)
        = mapVals f (ps.foldl (fun a p => jsInsert a p.1 p.2) acc) := by
  induction ps with
  | nil => intro acc; rfl
  | cons p ps ih =>
    intro acc
    rw [mapVals_cons, List.foldl_cons, List.foldl_cons]
    rw [show jsInsert (mapVals f acc) p.1 (f p.2)
      = mapVals f (jsInsert acc p.1 p.2) from jsInsert_mapVals f acc p.1 p.2]
    exact ih (jsInsert acc p.1 p.2)

lemma jsBuild_mapVals {α β : Type} (f : α → β) (ps : List (String × α)) :
    jsBuild (mapVals f ps) = mapVals f (jsBuild ps) :=
  jsBuild_mapVals_aux f ps []

lemma insSortedBy_fst_mapVals {α β : Type} (f : α → β) (x : String × α)
    (m : List (String × α)) :
    insSortedBy (fun p => (strToNat p.1 : Int)) (x.1, f x.2) (mapVals f m)
      = mapVals f (insSortedBy (fun p => (strToNat p.1 : Int)) x m) := by
  induction m with
  | nil => rfl
  | cons y ys ih =>
    rw [mapVals_cons, insSortedBy, insSortedBy]
    by_cases h : (strToNat x.1 : Int) ≤ (strToNat y.1 : Int)
    · rw [if_pos h, if_pos h, mapVals_cons, mapVals_cons]
    · rw [if_neg h, if_neg h, mapVals_cons, ih]

lemma sortOn_fst_mapVals {α β : Type} (f : α → β) (l : List (String × α)) :
    sortOn (fun p => (strToNat p.1 : Int)) (mapVals f l)
      = mapVals f (sortOn (fun p => (strToNat p.1 : Int)) l) := by
  induction l with
  | nil => rfl
  | cons x xs ih =>
    rw [mapVals_cons, sortOn, sortOn, List.foldr_cons, List.foldr_cons]
    show insSortedBy _ (x.1, f x.2) (sortOn _ (mapVals f xs)) = _
    rw [ih]
    exact insSortedBy_fst_mapVals f x _

lemma jsEntries_mapVals {α β : Type} (f : α → β) (l : List (String × α)) :
    jsEntries (mapVals f l) = mapVals f (jsEntries l) := by
  rw [jsEntries, jsEntries]
  have h1 : (mapVals f l).filter (fun p => isArrayIndex p.1)
      = mapVals f (l.filter (fun p => isArrayIndex p.1)) := by
    rw [mapVals, List.filter_map]
    rfl
  have h2 : (mapVals f l).filter (fun p => !isArrayIndex p.1)
      = mapVals f (l.filter (fun p => !isArrayIndex p.1)) := by
    rw [mapVals, List.filter_map]
    rfl
  rw [h1, h2, sortOn_fst_mapVals, mapVals_append]

lemma candidatesFor_scrub (entries : List (String × StaffInfo))
    (wc : String → Nat) (date : String) :
    candidatesFor (mapVals scrubMinDays entries) wc date
      = candidatesFor entries wc date := by
  rw [candidatesFor, candidatesFor, mapVals, List.filterMap_map]
  rfl

lemma assignedFor_scrub (entries : List (String × StaffInfo))
    (wc : String → Nat) (maxStaff : Int) (date : String) :
    assignedFor (mapVals scrubMinDays entries) wc maxStaff date
      = assignedFor entries wc maxStaff date := by
  rw [assignedFor, assignedFor, candidatesFor_scrub]

lemma stepDate_scrub (entries : List (String × StaffInfo)) (maxStaff : Int)
    (st : EngineState) (date : String) :
    stepDate (mapVals scrubMinDays entries) maxStaff st date
      = stepDate entries maxStaff st date := by
  rw [stepDate, stepDate, assignedFor_scrub]

lemma runAssign_scrub (entries : List (String × StaffInfo)) (maxStaff : Int)
    (dates : List String) :
    runAssign (mapVals scrubMinDays entries) maxStaff dates
      = runAssign entries maxStaff dates := by
  rw [runAssign, runAssign]
  generalize initState = st
  induction dates generalizing st with
  | nil => rfl
  | cons d ds ih =>
    rw [List.foldl_cons, List.foldl_cons, stepDate_scrub]
    exact ih _

lemma resolveIds_length (rand : Nat → String) (i : Nat) (l : List Staff) :
    (resolveIds rand i l).length = l.length := by
  induction l generalizing i with
  | nil => rfl
  | cons s rest ih => rw [resolveIds, List.length_cons, List.length_cons, ih]

lemma resolveId_eq_gen (rand : Nat → String) (i : Nat) (s : Staff)
    (h : truthy s.id || truthy s.name) : resolveId rand i s = resolveIdGen s := by
  rw [resolveId, resolveIdGen]
  by_cases hid : truthy s.id = true
  · rw [if_pos hid, if_pos hid]
  · rw [if_neg hid, if_neg hid]
    have hname : truthy s.name = true := by
      rcases Bool.or_eq_true _ _ |>.mp h with h2 | h2
      · exact absurd h2 hid
      · exact h2
    rw [if_pos hname]
    cases hn : s.name with
    | none => rw [hn] at hname; exact absurd hname (by rw [truthy]; simp)
    | some n => rfl

lemma resolveIds_eq_gen (rand : Nat → String) (l : List Staff)
    (h : ∀ s ∈ l, truthy s.id || truthy s.name) :
    ∀ i, resolveIds rand i l = l.map resolveIdGen := by
  induction l with
  | nil => intro i; rfl
  | cons s rest ih =>
    intro i
    rw [resolveIds, List.map_cons,
      resolveId_eq_gen rand i s (h s (List.mem_cons_self s rest)),
      ih (fun q hq => h q (List.mem_cons_of_mem s hq)) (i + 1)]

lemma zip_mkInfoGen (ids : List String) (staffList : List Staff)
    (dates : List String) :
    ids.zip (staffList.map (mkInfoGen dates))
      = mapVals scrubMinDays (ids.zip (staffList.map (mkInfo dates))) := by
  rw [List.zip_map_right, List.zip_map_right, mapVals, List.map_map]
  rfl

/-- Under the identification hypothesis, the variant's `staffInfo` entries
are the canonical ones with `minDays` scrubbed. -/
lemma entriesGen_eq (rand : Nat → String) (input : InputData)
    (h : ∀ s ∈ input.staff, truthy s.id || truthy s.name) :
    entriesGen input = mapVals scrubMinDays (entriesOf rand input) := by
  rw [entriesGen, entriesOf, buildInfo,
    ← resolveIds_eq_gen rand input.staff h 0, zip_mkInfoGen, jsBuild_mapVals,
    jsEntries_mapVals]

lemma finalStateGen_eq (rand : Nat → String) (input : InputData)
    (h : ∀ s ∈ input.staff, truthy s.id || truthy s.name) :
    finalStateGen input = finalState rand input := by
  rw [finalStateGen, finalState, entriesGen_eq rand input h, runAssign_scrub]

/-! Unfolding of the engine on validated input, and last helpers. -/

lemma length_ne_zero {β : Type} (l : List β) (h : l ≠ []) : ¬l.length = 0 :=
  fun h0 => h (List.length_eq_zero.mp h0)

/-- On a nonempty roster and date list the engine takes its success path. -/
lemma optimizeShift_of_nonempty (rand : Nat → String) (input : InputData)
    (h1 : input.staff ≠ []) (h2 : input.dates ≠ []) :
    optimizeShift rand input =
      { success := true
        schedule := some (resultScheduleOf rand input)
        stats := some
          { total_assignments := totalOf rand input
            staff_distribution := distributionOf rand input
            average_per_staff := averagePerStaff (totalOf rand input)
              input.staff.length
            days_with_shortage := (warningsOf rand input).length }
        warnings := if (warningsOf rand input).length > 0 then
          some (warningsOf rand input) else none
        error := none } := by
  rw [optimizeShift, if_neg (length_ne_zero _ h1), if_neg (length_ne_zero _ h2)]

/-- With a duplicate-free date list, a date's final schedule entry is exactly
the one assignment pass made for it (at the work counts current then). -/
lemma foldl_sched_pass (entries : List (String × StaffInfo)) (maxStaff : Int)
    (ds : List String) (st : EngineState) (hnd : ds.Nodup) :
    ∀ d ∈ ds, st.1 d = [] → ∃ wc2 : String → Nat,
      ((ds.foldl (stepDate entries maxStaff) st).1) d
        = assignedFor entries wc2 maxStaff d := by
  induction ds generalizing st with
  | nil => intro d hd; simp at hd
  | cons d0 rest ih =>
    rcases List.nodup_cons.mp hnd with ⟨hd0, hrest⟩
    intro d hd hempty
    rw [List.foldl_cons]
    rcases List.mem_cons.mp hd with rfl | hdr
    · refine ⟨st.2, ?_⟩
      rw [foldl_sched_frame entries maxStaff rest _ d hd0]
      simp [stepDate, hempty]
    · have hne : d ≠ d0 := fun h => hd0 (h ▸ hdr)
      refine ih _ hrest d hdr ?_
      simp [stepDate, hne, hempty]

/-- Counts that are each at most one sum to the number of dates containing
the element. -/
lemma sum_count_eq_filter_length (ds : List String)
    (sched : String → List String) (k : String)
    (h : ∀ d ∈ ds, ((sched d).count k) ≤ 1) :
    (ds.map (fun d => (sched d).count k)).sum
      = (ds.filter (fun d => k ∈ sched d)).length := by
  induction ds with
  | nil => rfl
  | cons d rest ih =>
    rw [List.map_cons, List.sum_cons, List.filter_cons]
    by_cases hm : k ∈ sched d
    · have h1 : (sched d).count k = 1 := by
        have := List.count_pos_iff.mpr hm
        have := h d (List.mem_cons_self d rest)
        omega
      rw [h1, if_pos (by simp [hm]), List.length_cons,
        ih (fun q hq => h q (List.mem_cons_of_mem d hq))]
      omega
    · have h0 : (sched d).count k = 0 := List.count_eq_zero_of_not_mem hm
      rw [h0, if_neg (by simp [hm]),
        ih (fun q hq => h q (List.mem_cons_of_mem d hq))]
      omega

/-- With a duplicate-free date list every date's schedule entry is
duplicate-free. -/
lemma foldl_sched_nodup (entries : List (String × StaffInfo)) (maxStaff : Int)
    (ds : List String) (hnd : ds.Nodup)
    (hkeys : (entries.map Prod.fst).Nodup) :
    ∀ d ∈ ds, (((ds.foldl (stepDate entries maxStaff) initState).1) d).Nodup := by
  intro d hd
  rcases foldl_sched_pass entries maxStaff ds initState hnd d hd rfl with ⟨wc2, hw⟩
  rw [hw]
  exact assignedFor_nodup entries wc2 maxStaff d hkeys

/-! Claim theorems. -/

/-- C8: `optimizeShift` fails (success false, error populated, schedule and
stats absent) exactly when the staff roster or the date list is empty, the
roster being checked first; on every nonempty roster and nonempty date list
it succeeds, with no other fallible step. -/
theorem failure_iff_empty_input (rand : Nat → String) (input : InputData) :
    ((optimizeShift rand input).success = false ↔
      input.staff = [] ∨ input.dates = [])
    ∧ (input.staff = [] → optimizeShift rand input =
        { success := false, error := some "スタッフが登録されていません" })
    ∧ (input.staff ≠ [] → input.dates = [] → optimizeShift rand input =
        { success := false, error := some "日付が指定されていません" })
    ∧ (input.staff ≠ [] → input.dates ≠ [] →
        (optimizeShift rand input).success = true
        ∧ ((optimizeShift rand input).schedule).isSome = true
        ∧ ((optimizeShift rand input).stats).isSome = true
        ∧ (optimizeShift rand input).error = none) := by
  by_cases h1 : input.staff = []
  · have he : optimizeShift rand input =
        { success := false, error := some "スタッフが登録されていません" } := by
      rw [optimizeShift, if_pos (by rw [h1]; rfl)]
    rw [he]
    exact ⟨by simp [h1], fun _ => rfl, fun hns _ => absurd h1 hns,
      fun hns _ => absurd h1 hns⟩
  · by_cases h2 : input.dates = []
    · have he : optimizeShift rand input =
          { success := false, error := some "日付が指定されていません" } := by
        rw [optimizeShift, if_neg (length_ne_zero _ h1),
          if_pos (by rw [h2]; rfl)]
      rw [he]
      exact ⟨by simp [h1, h2], fun hs => absurd hs h1, fun _ _ => rfl,
        fun _ hnd => absurd h2 hnd⟩
    · rw [optimizeShift_of_nonempty rand input h1 h2]
      exact ⟨by simp [h1, h2], fun hs => absurd hs h1,
        fun _ hd => absurd hd h2, fun _ _ => ⟨rfl, rfl, rfl, rfl⟩⟩

/-- Witness for C8 at a concrete empty roster. -/
theorem failure_iff_empty_input_witness :
    (optimizeShift sampleRand (InputData.mk [] ["2025-01-01"] {})).success
      = false :=
  (failure_iff_empty_input sampleRand
    (InputData.mk [] ["2025-01-01"] {})).1.mpr (Or.inl rfl)

/-- C5: no staff member is ever assigned to a date in their unavailable set;
since the unavailable check runs before the preference bonus is even read,
this covers staff whose preferred set also holds the date, so unavailability
takes precedence over preference. -/
theorem unavailable_precedence (rand : Nat → String) (input : InputData)
    (items : List ScheduleItem) (it : ScheduleItem) (k : String)
    (info : StaffInfo)
    (hs : (optimizeShift rand input).schedule = some items)
    (hit : it ∈ items) (hk : k ∈ it.staff)
    (hinfo : (k, info) ∈ buildInfo rand input.staff input.dates) :
    info.unavailableDates.contains it.date = false := by
  by_cases h1 : input.staff = []
  · rw [optimizeShift, if_pos (by rw [h1]; rfl)] at hs
    exact absurd hs (by simp)
  by_cases h2 : input.dates = []
  · rw [optimizeShift, if_neg (length_ne_zero _ h1),
      if_pos (by rw [h2]; rfl)] at hs
    exact absurd hs (by simp)
  rw [optimizeShift_of_nonempty rand input h1 h2] at hs
  obtain rfl := (Option.some_inj.mp hs).symm
  rcases List.mem_map.mp hit with ⟨d, hd, rfl⟩
  have hmem := foldl_sched_mem (entriesOf rand input) (maxStaffOf input)
    input.dates initState
    (fun d k hk => absurd hk (List.not_mem_nil k)) d k hk
  rcases hmem with ⟨info2, hinfo2, hunav⟩
  have hinfo2b : (k, info2) ∈ buildInfo rand input.staff input.dates :=
    (jsEntries_perm (buildInfo rand input.staff input.dates)).mem_iff.mp hinfo2
  have heq := value_eq_of_keys_nodup (buildInfo rand input.staff input.dates)
    (jsBuild_keys_nodup _) k info info2 hinfo hinfo2b
  rw [heq]
  exact hunav

/-- Witness for C5: staff member A has "d1" both preferred and unavailable
and is not assigned; B is. -/
theorem unavailable_precedence_witness :
    (mkInfo ["d1"] (Staff.mk (some "B") none [] [] none none)
      ).unavailableDates.contains "d1" = false :=
  unavailable_precedence sampleRand
    (InputData.mk [Staff.mk (some "A") none ["d1"] ["d1"] none none,
      Staff.mk (some "B") none [] [] none none] ["d1"] {})
    [ScheduleItem.mk "d1" ["B"] 1] (ScheduleItem.mk "d1" ["B"] 1) "B"
    (mkInfo ["d1"] (Staff.mk (some "B") none [] [] none none))
    (by decide) (by decide) (by decide) (by decide)

/-- C3 counterexample: for `dates = ["d1", "d1"]` and one staff member,
`maxStaffPerDay` defaults to the roster size 1, yet the returned items carry
count 2, because both passes over "d1" push onto the same `schedule["d1"]`
array while the cap is only enforced within one pass. -/
theorem per_day_cap_cex :
    ∃ it ∈ ((optimizeShift sampleRand (InputData.mk [{ id := some "a" }]
      ["d1", "d1"] {})).schedule).getD [],
      (maxStaffOf (InputData.mk [{ id := some "a" }] ["d1", "d1"] {})).toNat
        < it.count := by decide

/-- C3 amended: when the date list has no repeats, every returned item's
count is at most `maxStaffPerDay`; within each pass the engine appends the
sorted candidates truncated at the cap, i.e. it stops when the pool is
exhausted or `maxStaffPerDay` assignments have been made in that pass. -/
theorem per_day_cap_amended (rand : Nat → String) (input : InputData)
    (hnd : input.dates.Nodup) (items : List ScheduleItem) (it : ScheduleItem)
    (hs : (optimizeShift rand input).schedule = some items)
    (hit : it ∈ items) :
    it.count ≤ (maxStaffOf input).toNat
    ∧ ∀ st : EngineState, ∀ date : String,
        ((stepDate (entriesOf rand input) (maxStaffOf input) st date).1) date
          = st.1 date ++ assignedFor (entriesOf rand input) st.2
              (maxStaffOf input) date := by
  constructor
  · by_cases h1 : input.staff = []
    · rw [optimizeShift, if_pos (by rw [h1]; rfl)] at hs
      exact absurd hs (by simp)
    by_cases h2 : input.dates = []
    · rw [optimizeShift, if_neg (length_ne_zero _ h1),
        if_pos (by rw [h2]; rfl)] at hs
      exact absurd hs (by simp)
    rw [optimizeShift_of_nonempty rand input h1 h2] at hs
    obtain rfl := (Option.some_inj.mp hs).symm
    rcases List.mem_map.mp hit with ⟨d, hd, rfl⟩
    exact foldl_sched_len (entriesOf rand input) (maxStaffOf input)
      input.dates initState hnd d hd rfl
  · intro st date
    simp [stepDate]

/-- Witness for C3's amended statement on a duplicate-free date list. -/
theorem per_day_cap_amended_witness :
    (ScheduleItem.mk "d1" ["a"] 1).count
      ≤ (maxStaffOf (InputData.mk [{ id := some "a" }] ["d1", "d2"] {})).toNat :=
  (per_day_cap_amended sampleRand
    (InputData.mk [{ id := some "a" }] ["d1", "d2"] {}) (by decide)
    [ScheduleItem.mk "d1" ["a"] 1, ScheduleItem.mk "d2" ["a"] 1]
    (ScheduleItem.mk "d1" ["a"] 1) (by decide) (by decide)).1

/-- C7: on validated input the run always succeeds; the warnings are exactly
the shortage messages produced, in date order, for the date-list entries
whose final assigned count is below `minStaffPerDay`; `days_with_shortage`
equals the number of warnings. -/
theorem shortage_warnings_iff (rand : Nat → String) (input : InputData)
    (h1 : input.staff ≠ []) (h2 : input.dates ≠ []) :
    (optimizeShift rand input).success = true
    ∧ (optimizeShift rand input).stats.map Stats.days_with_shortage
        = some (warningsOf rand input).length
    ∧ (optimizeShift rand input).warnings
        = (if (warningsOf rand input).length > 0 then
            some (warningsOf rand input) else none)
    ∧ warningsOf rand input = shortageWarnings input.dates (minStaffOf input)
        (finalState rand input).1
    ∧ (∀ d ∈ input.dates,
        ((((finalState rand input).1) d).length : Int) < minStaffOf input →
          mkWarning d (minStaffOf input) (((finalState rand input).1) d).length
            ∈ warningsOf rand input)
    ∧ (∀ w ∈ warningsOf rand input, ∃ d ∈ input.dates,
        ((((finalState rand input).1) d).length : Int) < minStaffOf input
        ∧ w = mkWarning d (minStaffOf input)
            (((finalState rand input).1) d).length) := by
  rw [optimizeShift_of_nonempty rand input h1 h2]
  refine ⟨rfl, rfl, rfl, rfl, ?_, ?_⟩
  · intro d hd hlt
    exact List.mem_filterMap.mpr ⟨d, hd, by rw [if_pos hlt]⟩
  · intro w hw
    rcases List.mem_filterMap.mp hw with ⟨d, hd, hf⟩
    by_cases hlt : (((finalState rand input).1 d).length : Int)
        < minStaffOf input
    · rw [if_pos hlt] at hf
      exact ⟨d, hd, hlt, (Option.some_inj.mp hf).symm⟩
    · rw [if_neg hlt] at hf
      exact absurd hf (by simp)

/-- Witness for C7: a fully unavailable roster yields a shortage warning but
still a successful run. -/
theorem shortage_warnings_iff_witness :
    (optimizeShift sampleRand (InputData.mk
      [Staff.mk (some "A") none [] ["d1"] none none] ["d1"]
      (Constraints.mk (some 1) (some 1)))).success = true :=
  (shortage_warnings_iff sampleRand (InputData.mk
    [Staff.mk (some "A") none [] ["d1"] none none] ["d1"]
    (Constraints.mk (some 1) (some 1))) (by decide) (by decide)).1

lemma mem_jsInsert {α : Type} (l : List (String × α)) (k : String) (v : α)
    (q : String × α) (h : q ∈ jsInsert l k v) : q ∈ l ∨ q = (k, v) := by
  rw [jsInsert] at h
  by_cases hany : l.any (fun p => p.1 == k) = true
  · rw [if_pos hany] at h
    rcases List.mem_map.mp h with ⟨p, hp, hq⟩
    by_cases hpk : (p.1 == k) = true
    · rw [if_pos hpk] at hq
      exact Or.inr hq.symm
    · rw [if_neg hpk] at hq
      exact Or.inl (hq ▸ hp)
  · rw [if_neg hany] at h
    rcases List.mem_append.mp h with h | h
    · exact Or.inl h
    · exact Or.inr (List.mem_singleton.mp h)

lemma mem_jsBuild_aux {α : Type} (ps : List (String × α)) :
    ∀ (acc : List (String × α)) (q : String × α),
      q ∈ ps.foldl (fun a p => jsInsert a p.1 p.2) acc → q ∈ acc ∨ q ∈ ps := by
  induction ps with
  | nil => intro acc q h; exact Or.inl h
  | cons p rest ih =>
    intro acc q h
    rw [List.foldl_cons] at h
    rcases ih (jsInsert acc p.1 p.2) q h with h2 | h2
    · rcases mem_jsInsert acc p.1 p.2 q h2 with h3 | h3
      · exact Or.inl h3
      · exact Or.inr (h3 ▸ List.mem_cons_self p rest)
    · exact Or.inr (List.mem_cons_of_mem p h2)

/-- Every entry of a built JavaScript object is one of the assigned pairs. -/
lemma mem_jsBuild {α : Type} (ps : List (String × α)) (q : String × α)
    (h : q ∈ jsBuild ps) : q ∈ ps := by
  rcases mem_jsBuild_aux ps [] q h with h2 | h2
  · exact absurd h2 (List.not_mem_nil q)
  · exact h2

/-- Every `staffInfo` value is the info record of some roster entry. -/
lemma info_mem_values (rand : Nat → String) (staffList : List Staff)
    (dates : List String) (k : String) (info : StaffInfo)
    (h : (k, info) ∈ buildInfo rand staffList dates) :
    ∃ s ∈ staffList, info = mkInfo dates s := by
  have h2 := mem_jsBuild _ _ h
  have h3 := (List.of_mem_zip h2).2
  rcases List.mem_map.mp h3 with ⟨s, hs, hinfo⟩
  exact ⟨s, hs, hinfo.symm⟩

/-- C4 counterexample: two concrete runs.  With `dates = ["d1","d1","d2"]`
and `max_days = 1`, staff "a" has final workCount 1 but appears in two of the
returned schedule items, so the claimed equality with the number of items
containing the id fails.  With `max_days = -1`, the final workCount 0 exceeds
the configured `maxDays` value -1, so the claimed bound fails on inputs
outside the documented domain. -/
theorem per_staff_cap_cex :
    ((optimizeShift sampleRand (InputData.mk
        [Staff.mk (some "a") none [] [] (some 1) none] ["d1", "d1", "d2"] {})
      ).stats.map Stats.staff_distribution = some [("a", 1)])
    ∧ ((((optimizeShift sampleRand (InputData.mk
        [Staff.mk (some "a") none [] [] (some 1) none] ["d1", "d1", "d2"] {})
      ).schedule).getD []).filter (fun it => "a" ∈ it.staff)).length = 2
    ∧ ((optimizeShift sampleRand (InputData.mk
        [Staff.mk (some "a") none [] [] (some (-1)) none] ["d1"] {})
      ).stats.map Stats.staff_distribution = some [("a", 0)])
    ∧ (jsGet (buildInfo sampleRand
        [Staff.mk (some "a") none [] [] (some (-1)) none] ["d1"] ) "a").map
        StaffInfo.maxDays = some (-1) := by decide

/-- C4 amended: on a duplicate-free date list and with all configured
`max_days` values nonnegative, every staff key's final work count is at most
its `maxDays`, each `staff_distribution` entry equals the number of schedule
items containing the id, work counts are monotonically non-decreasing along
the run, and each pass bumps a work count by exactly the (duplicate-free)
assignment list's count of the id, i.e. by exactly one per assignment. -/
theorem per_staff_cap_amended (rand : Nat → String) (input : InputData)
    (hnd : input.dates.Nodup)
    (hmax : ∀ s ∈ input.staff,
      0 ≤ s.max_days.getD (input.dates.length : Int)) :
    (∀ k info, (k, info) ∈ entriesOf rand input →
        (((finalState rand input).2) k : Int) ≤ info.maxDays)
    ∧ (∀ p ∈ distributionOf rand input,
        p.2 = ((resultScheduleOf rand input).filter
          (fun it => p.1 ∈ it.staff)).length)
    ∧ (∀ k ds1 ds2, input.dates = ds1 ++ ds2 →
        ((runAssign (entriesOf rand input) (maxStaffOf input) ds1).2) k
          ≤ ((finalState rand input).2) k)
    ∧ (∀ st date k,
        ((stepDate (entriesOf rand input) (maxStaffOf input) st date).2) k
          = st.2 k + (assignedFor (entriesOf rand input) st.2
              (maxStaffOf input) date).count k
        ∧ (assignedFor (entriesOf rand input) st.2 (maxStaffOf input)
            date).Nodup) := by
  refine ⟨?_, ?_, ?_, ?_⟩
  · intro k info hk
    refine foldl_wc_cap (entriesOf rand input) (maxStaffOf input)
      input.dates initState (entries_keys_nodup rand input.staff input.dates)
      ?_ k info hk
    intro k2 info2 hk2
    have hb : (k2, info2) ∈ buildInfo rand input.staff input.dates :=
      (jsEntries_perm (buildInfo rand input.staff input.dates)).mem_iff.mp hk2
    rcases info_mem_values rand input.staff input.dates k2 info2 hb with
      ⟨s, hs, rfl⟩
    exact hmax s hs
  · intro p hp
    rcases List.mem_map.mp hp with ⟨q, hq, rfl⟩
    show (finalState rand input).2 q.1 = _
    have hB := foldl_wc_counts (entriesOf rand input) (maxStaffOf input)
      input.dates initState hnd (fun d hd => rfl) q.1
    have hcounts : ∀ d ∈ input.dates,
        (((finalState rand input).1) d).count q.1 ≤ 1 := by
      intro d hd
      exact count_le_one_of_nodup _
        (foldl_sched_nodup (entriesOf rand input) (maxStaffOf input)
          input.dates hnd (entries_keys_nodup rand input.staff input.dates)
          d hd) q.1
    have hsum := sum_count_eq_filter_length input.dates
      (finalState rand input).1 q.1 hcounts
    have hfilter : (input.dates.filter
        (fun d => q.1 ∈ (finalState rand input).1 d)).length
        = ((resultScheduleOf rand input).filter
            (fun it => q.1 ∈ it.staff)).length := by
      rw [resultScheduleOf, List.filter_map, List.length_map]
      congr 1
    rw [← hfilter, ← hsum]
    simpa [initState] using hB
  · intro k ds1 ds2 happ
    show ((ds1.foldl (stepDate (entriesOf rand input) (maxStaffOf input))
      initState).2) k ≤ ((input.dates.foldl (stepDate (entriesOf rand input)
        (maxStaffOf input)) initState).2) k
    rw [happ, List.foldl_append]
    exact foldl_wc_mono (entriesOf rand input) (maxStaffOf input) ds2 _ k
  · intro st date k
    exact ⟨rfl, assignedFor_nodup (entriesOf rand input) st.2
      (maxStaffOf input) date
      (entries_keys_nodup rand input.staff input.dates)⟩

/-- Witness for C4's amended cap at a concrete input. -/
theorem per_staff_cap_amended_witness :
    (((finalState sampleRand (InputData.mk [{ id := some "a" }] ["d1"] {})).2)
      "a" : Int) ≤ (mkInfo ["d1"] { id := some "a" }).maxDays :=
  (per_staff_cap_amended sampleRand
    (InputData.mk [{ id := some "a" }] ["d1"] {}) (by decide) (by decide)).1
    "a" (mkInfo ["d1"] { id := some "a" }) (by decide)

/-- C6 counterexample: with `dates = ["d1", "d1"]` and one staff member,
`total_assignments` is 2 while the counts of the returned schedule items sum
to 4, because both items for "d1" report the shared, doubly-filled array. -/
theorem accounting_identity_cex :
    ((optimizeShift sampleRand (InputData.mk [{ id := some "a" }]
        ["d1", "d1"] {})).stats.map Stats.total_assignments = some 2)
    ∧ ((((optimizeShift sampleRand (InputData.mk [{ id := some "a" }]
        ["d1", "d1"] {})).schedule).getD []).map ScheduleItem.count).sum
        = 4 := by decide

/-- C6 amended: the sum of the `staff_distribution` values always equals
`total_assignments`; the further equality with the sum of the schedule
items' counts holds whenever the date list has no repeats. -/
theorem accounting_identity_amended (rand : Nat → String) (input : InputData)
    (h1 : input.staff ≠ []) (h2 : input.dates ≠ []) :
    ((distributionOf rand input).map Prod.snd).sum = totalOf rand input
    ∧ (optimizeShift rand input).stats.map Stats.total_assignments
        = some (totalOf rand input)
    ∧ (optimizeShift rand input).stats.map Stats.staff_distribution
        = some (distributionOf rand input)
    ∧ (optimizeShift rand input).schedule = some (resultScheduleOf rand input)
    ∧ (input.dates.Nodup → totalOf rand input
        = ((resultScheduleOf rand input).map ScheduleItem.count).sum) := by
  refine ⟨rfl, ?_, ?_, ?_, ?_⟩
  · rw [optimizeShift_of_nonempty rand input h1 h2]; rfl
  · rw [optimizeShift_of_nonempty rand input h1 h2]; rfl
  · rw [optimizeShift_of_nonempty rand input h1 h2]
  · intro hnd
    have hA : totalOf rand input
        = (((entriesOf rand input).map Prod.fst).map
            (fun k => (finalState rand input).2 k)).sum := by
      rw [totalOf, distributionOf, List.map_map, List.map_map]
      rfl
    have hB : ∀ k, (finalState rand input).2 k
        = (input.dates.map (fun d =>
            (((finalState rand input).1) d).count k)).sum := by
      intro k
      have hw := foldl_wc_counts (entriesOf rand input) (maxStaffOf input)
        input.dates initState hnd (fun d hd => rfl) k
      simpa [initState] using hw
    have hC : (((entriesOf rand input).map Prod.fst).map
          (fun k => (finalState rand input).2 k))
        = ((entriesOf rand input).map Prod.fst).map (fun k =>
            (input.dates.map (fun d =>
              (((finalState rand input).1) d).count k)).sum) :=
      List.map_congr_left (fun k _ => hB k)
    have hD : ∀ d ∈ input.dates,
        (((entriesOf rand input).map Prod.fst).map (fun k =>
          (((finalState rand input).1) d).count k)).sum
          = (((finalState rand input).1) d).length := by
      intro d _
      refine sum_counts_length _ _
        (entries_keys_nodup rand input.staff input.dates) ?_
      intro x hx
      rcases foldl_sched_mem (entriesOf rand input) (maxStaffOf input)
        input.dates initState (fun d k hk => absurd hk (List.not_mem_nil k))
        d x hx with ⟨info, hinfo, _⟩
      exact List.mem_map_of_mem Prod.fst hinfo
    rw [hA, hC, sum_exchange]
    rw [List.map_congr_left hD, resultScheduleOf, List.map_map]
    rfl

/-- Witness for C6's amended identity on a duplicate-free date list. -/
theorem accounting_identity_amended_witness :
    totalOf sampleRand (InputData.mk [{ id := some "a" }] ["d1", "d2"] {})
      = ((resultScheduleOf sampleRand (InputData.mk [{ id := some "a" }]
          ["d1", "d2"] {})).map ScheduleItem.count).sum :=
  (accounting_identity_amended sampleRand
    (InputData.mk [{ id := some "a" }] ["d1", "d2"] {}) (by decide)
    (by decide)).2.2.2.2 (by decide)

/-- The key order of `staffInfo` is the roster's resolved identifiers,
first occurrence kept. -/
lemma buildInfo_keys (rand : Nat → String) (staffList : List Staff)
    (dates : List String) :
    (buildInfo rand staffList dates).map Prod.fst
      = firstDedup (resolveIds rand 0 staffList) := by
  rw [buildInfo, jsBuild_keys]
  congr 1
  exact List.map_fst_zip _ _ (by rw [resolveIds_length, List.length_map])

/-- C2 counterexample: in the roster [id "b", id "1"], both candidates score
0 on "d1", yet `Object.entries` puts the array-index key "1" first, so "1" is
assigned instead of the roster-earlier "b": the consideration order is not
the roster order for integer-like identifiers. -/
theorem stable_tie_break_cex :
    considerationOrder sampleRand (InputData.mk
        [{ id := some "b" }, { id := some "1" }] ["d1"]
        (Constraints.mk none (some 1))) = ["1", "b"]
    ∧ resolveIds sampleRand 0 [{ id := some "b" }, { id := some "1" }]
        = ["b", "1"]
    ∧ (optimizeShift sampleRand (InputData.mk
        [{ id := some "b" }, { id := some "1" }] ["d1"]
        (Constraints.mk none (some 1)))).schedule
        = some [ScheduleItem.mk "d1" ["1"] 1] := by decide

/-- C2 amended: the consideration order is the `Object.entries` order, which
equals first-occurrence-deduplicated roster order whenever no resolved
identifier is an ECMAScript array-index string; the per-day sort is stable
(equal-score candidates keep their consideration order), and the candidate
pool lists identifiers in consideration order. -/
theorem stable_tie_break_amended (rand : Nat → String) (input : InputData)
    (h : ∀ k ∈ (buildInfo rand input.staff input.dates).map Prod.fst,
      isArrayIndex k = false) :
    considerationOrder rand input
        = firstDedup (resolveIds rand 0 input.staff)
    ∧ (∀ wc date a b,
        List.Sublist [a, b] (candidatesFor (entriesOf rand input) wc date) →
        a.2 = b.2 →
        List.Sublist [a, b]
          (sortOn Prod.snd (candidatesFor (entriesOf rand input) wc date)))
    ∧ (∀ wc date, List.Sublist
        ((candidatesFor (entriesOf rand input) wc date).map Prod.fst)
        (considerationOrder rand input)) := by
  refine ⟨?_, ?_, ?_⟩
  · rw [considerationOrder, jsEntries_of_no_arrayIndex _
      (fun p hp => h p.1 (List.mem_map_of_mem Prod.fst hp))]
    exact buildInfo_keys rand input.staff input.dates
  · intro wc date a b hab heq
    exact sortOn_stable Prod.snd _ a b hab (le_of_eq heq)
  · intro wc date
    exact candidatesFor_keys_sublist (entriesOf rand input) wc date

/-- Witness for C2's amended order statement on non-array-index ids. -/
theorem stable_tie_break_amended_witness :
    considerationOrder sampleRand (InputData.mk
        [{ id := some "alice" }, { id := some "bob" }] ["d1"] {})
      = firstDedup (resolveIds sampleRand 0
          [{ id := some "alice" }, { id := some "bob" }]) :=
  (stable_tie_break_amended sampleRand
    (InputData.mk [{ id := some "alice" }, { id := some "bob" }] ["d1"] {})
    (by decide)).1

/-- C10: entries resolving to the same identifier collapse to one staff
member: the key sits at the first such entry's position, its info record is
the last such entry's, every built entry stems from a roster entry, and the
distribution holds exactly one (workCount) cell per identifier. -/
theorem duplicate_id_collapse (rand : Nat → String) (staffList : List Staff)
    (dates : List String) :
    ((buildInfo rand staffList dates).map Prod.fst
        = firstDedup (resolveIds rand 0 staffList))
    ∧ (∀ k, jsGet (buildInfo rand staffList dates) k
        = (((resolveIds rand 0 staffList).zip staffList).reverse.find?
            (fun p => p.1 == k)).map (fun p => mkInfo dates p.2))
    ∧ ((buildInfo rand staffList dates).map Prod.fst).Nodup
    ∧ (∀ k, k ∈ (buildInfo rand staffList dates).map Prod.fst ↔
        k ∈ resolveIds rand 0 staffList)
    ∧ (∀ input : InputData,
        (distributionOf rand input).map Prod.fst
          = (entriesOf rand input).map Prod.fst
        ∧ ((distributionOf rand input).map Prod.fst).Nodup) := by
  refine ⟨buildInfo_keys rand staffList dates, ?_, jsBuild_keys_nodup _,
    ?_, ?_⟩
  · intro k
    rw [buildInfo, jsGet_jsBuild, List.zip_map_right, ← List.map_reverse,
      List.find?_map, Option.map_map]
    rfl
  · intro k
    rw [buildInfo_keys]
    exact firstDedup_mem _ k
  · intro input
    have hkeys : (distributionOf rand input).map Prod.fst
        = (entriesOf rand input).map Prod.fst := by
      rw [distributionOf, List.map_map]
      rfl
    exact ⟨hkeys, hkeys ▸ entries_keys_nodup rand input.staff input.dates⟩

/-- C9: when every staff entry carries a truthy id or name, the variant's
flat shift list is exactly the flattening of the canonical engine's per-day
schedule — one record per assignment, in schedule order, with the fixed
placeholder times — for any randomness oracle. -/
theorem projection_equivalence (rand : Nat → String) (input : InputData)
    (h : ∀ s ∈ input.staff, truthy s.id || truthy s.name) :
    (optimizeShiftGen input).shifts
      = ((optimizeShift rand input).schedule).map flattenSchedule := by
  by_cases h1 : input.staff = []
  · rw [optimizeShift, optimizeShiftGen, if_pos (by rw [h1]; rfl),
      if_pos (by rw [h1]; rfl)]
    rfl
  by_cases h2 : input.dates = []
  · rw [optimizeShift, optimizeShiftGen, if_neg (length_ne_zero _ h1),
      if_neg (length_ne_zero _ h1), if_pos (by rw [h2]; rfl),
      if_pos (by rw [h2]; rfl)]
    rfl
  rw [optimizeShift_of_nonempty rand input h1 h2, optimizeShiftGen,
    if_neg (length_ne_zero _ h1), if_neg (length_ne_zero _ h2)]
  show some (shiftsOf input)
    = some (flattenSchedule (resultScheduleOf rand input))
  congr 1
  rw [shiftsOf, flattenSchedule, resultScheduleOf, List.flatMap_map,
    finalStateGen_eq rand input h]

/-- Witness for C9 at a concrete two-member roster. -/
theorem projection_equivalence_witness :
    (optimizeShiftGen (InputData.mk [{ id := some "A" }, { id := some "B" }]
        ["d1"] {})).shifts
      = ((optimizeShift sampleRand (InputData.mk [{ id := some "A" },
          { id := some "B" }] ["d1"] {})).schedule).map flattenSchedule :=
  projection_equivalence sampleRand
    (InputData.mk [{ id := some "A" }, { id := some "B" }] ["d1"] {})
    (by decide)

/-- C1: the randomness of the synthetic-identifier fallback reaches the
output.  For a roster whose single member has neither id nor name, two runs
whose `Math.random` draws differ return different schedules, so the engine is
not deterministic on such inputs — the failing input the claim rules out. -/
theorem randomness_affects_output :
    ((optimizeShift (fun _ => "aaaaaa")
        (InputData.mk [{}] ["d1"] {})).schedule
      = some [ScheduleItem.mk "d1" ["staff_aaaaaa"] 1])
    ∧ ((optimizeShift (fun _ => "bbbbbb")
        (InputData.mk [{}] ["d1"] {})).schedule
      = some [ScheduleItem.mk "d1" ["staff_bbbbbb"] 1])
    ∧ optimizeShift (fun _ => "aaaaaa") (InputData.mk [{}] ["d1"] {})
      ≠ optimizeShift (fun _ => "bbbbbb") (InputData.mk [{}] ["d1"] {}) := by
  refine ⟨by decide, by decide, fun hcontra => ?_⟩
  have hsched := congrArg OptimizeResult.schedule hcontra
  exact absurd hsched (by decide)

end ShiftManagement
